import Mathlib

/-!
Verification of the path/glob helpers of `kedro/extras/datasets/spark/spark_dataset.py`.

The Python module provides:
  * `_parse_glob_pattern(pattern)` — literal '/'-separated prefix of a glob pattern;
  * `_split_filepath(filepath)`    — split a location into `scheme://` and the rest;
  * `_strip_dbfs_prefix(path, prefix)` — remove a literal prefix when present;
  * `_dbfs_glob(pattern, dbutils)` — one-level glob emulation over a DBFS listing;
  * `_dbfs_exists(pattern, dbutils)` — existence probe by listing the literal prefix;
  * `KedroHdfsInsecureClient.hdfs_glob(pattern)` — glob over a recursive HDFS walk.

All of these are embedded below over `List Char` / `String`.  Python's
`fnmatch.fnmatch` (shell-style wildcard matching) and the join/normalisation
behaviour of `pathlib.PurePosixPath` are embedded as well, since `_dbfs_glob`
and `hdfs_glob` depend on them.
-/

namespace SparkDS

/-- Python `s.split("/")`: split a character list at every `'/'`, keeping empty
pieces; the result is always nonempty. -/
def splitSlash : List Char → List (List Char)
  | [] => [[]]
  | c :: cs =>
    if c = '/' then [] :: splitSlash cs
    else
      match splitSlash cs with
      | [] => [[c]]
      | t :: ts => (c :: t) :: ts

/-- Python `"/".join(parts)`. -/
def joinSlash : List (List Char) → List Char
  | [] => []
  | [p] => p
  | p :: ps => p ++ '/' :: joinSlash ps

/-- Python `any(char in part for char in ("*", "?", "["))`: does a pattern
segment contain a glob metacharacter? -/
def hasSpecial (part : List Char) : Bool :=
  part.any fun c => c == '*' || c == '?' || c == '['

/-- Embedding of `_parse_glob_pattern`: keep the maximal leading run of
'/'-separated segments free of `*`, `?`, `[`, and join them back with `/`. -/
def parseGlobPattern (pattern : String) : String :=
  ⟨joinSlash ((splitSlash pattern.data).takeWhile fun part => !hasSpecial part)⟩

/-- Helper for `_split_filepath`: locate the first occurrence of `"://"`.
`findSep s = some (a, b)` means `s = a ++ "://" ++ b` with the occurrence at
position `a.length`; `none` means no occurrence. -/
def findSep : List Char → Option (List Char × List Char)
  | [] => none
  | c :: cs =>
    if c = ':' ∧ cs.take 2 = ['/', '/'] then some ([], cs.drop 2)
    else (findSep cs).map fun p => (c :: p.1, p.2)

/-- Embedding of `_split_filepath`: Python `filepath.split("://", 1)`; when the
separator occurs, the scheme keeps the separator, otherwise the scheme is
empty. -/
def splitFilepath (filepath : String) : String × String :=
  match findSep filepath.data with
  | some (a, b) => (⟨a⟩ ++ "://", ⟨b⟩)
  | none => ("", filepath)

/-- Embedding of `_strip_dbfs_prefix`: Python
`path[len(prefix):] if path.startswith(prefix) else path`. -/
def stripDbfsPre (path : String) (pre : String) : String :=
  if pre.data.isPrefixOf path.data then ⟨path.data.drop pre.data.length⟩ else path

/-! ### Shell-style wildcard matching (`fnmatch.fnmatch` on POSIX) -/

/-- Membership of a character in a `[...]` class body: literal characters plus
`x-y` ranges; an inverted range (`x > y`) matches nothing, a trailing or
leading `-` is literal. -/
def classMatch : List Char → Char → Bool
  | [], _ => false
  | a :: '-' :: b :: rest, c =>
    if a ≤ c ∧ c ≤ b then true else classMatch rest c
  | a :: rest, c => if a = c then true else classMatch rest c

/-- Scan forward to the `]` closing a character class: returns the class body
and the remainder of the pattern, or `none` when the class is unterminated. -/
def findClassEnd : List Char → Option (List Char × List Char)
  | [] => none
  | ']' :: rest => some ([], rest)
  | c :: rest =>
    match findClassEnd rest with
    | none => none
    | some (body, rest1) => some (c :: body, rest1)

/-- Parse the pattern right after a `[`: optional `!` negation, a first `]`
taken literally, then the class body up to the closing `]`; `none` when the
class never closes (then the `[` is a literal character). -/
def parseClass (ps : List Char) : Option (Bool × List Char × List Char) :=
  match ps with
  | '!' :: ']' :: u => (findClassEnd u).map fun p => (true, ']' :: p.1, p.2)
  | '!' :: t => (findClassEnd t).map fun p => (true, p.1, p.2)
  | ']' :: u => (findClassEnd u).map fun p => (false, ']' :: p.1, p.2)
  | _ => (findClassEnd ps).map fun p => (false, p.1, p.2)

/-- Full-string shell-style wildcard matching, fuelled so the kernel can
evaluate it: `*` matches any run of characters (including `/`), `?` any
single character, `[...]` a character class with optional `!` negation; an
unterminated `[` is literal.  Every recursive call strictly decreases
`p.length + s.length`, so `globMatch` below supplies a sufficient fuel and
the `fuel = 0` branch is unreachable from it. -/
def globMatchFuel : Nat → List Char → List Char → Bool
  | 0, _, _ => false
  | fuel + 1, p, s =>
    match p, s with
    | [], [] => true
    | [], _ :: _ => false
    | '*' :: ps, s =>
      globMatchFuel fuel ps s ||
        (match s with
         | [] => false
         | _ :: cs => globMatchFuel fuel ('*' :: ps) cs)
    | '?' :: ps, s =>
      (match s with
       | [] => false
       | _ :: cs => globMatchFuel fuel ps cs)
    | '[' :: ps, s =>
      (match parseClass ps, s with
       | none, [] => false
       | none, c :: cs => '[' == c && globMatchFuel fuel ps cs
       | some _, [] => false
       | some (neg, body, rest), c :: cs =>
         (neg != classMatch body c) && globMatchFuel fuel rest cs)
    | a :: ps, s =>
      (match s with
       | [] => false
       | c :: cs => a == c && globMatchFuel fuel ps cs)

/-- Full-string shell-style wildcard matching of `s` against pattern `p`;
this is Python `fnmatch.fnmatchcase(s, p)` (no case folding on POSIX). -/
def globMatch (p s : List Char) : Bool :=
  globMatchFuel (p.length + s.length + 1) p s

/-- Python `fnmatch(name, pat)` on Strings. -/
def fnmatch (name pat : String) : Bool :=
  globMatch pat.data name.data

/-! ### `pathlib.PurePosixPath` construction and `/` join -/

/-- Root of a POSIX path string: `//` when it begins with exactly two slashes,
`/` for one or three-plus slashes, empty otherwise (pathlib's rule). -/
def posixRoot (s : List Char) : List Char :=
  match s with
  | '/' :: '/' :: '/' :: _ => ['/']
  | '/' :: '/' :: _ => ['/', '/']
  | '/' :: _ => ['/']
  | _ => []

/-- Path components of a POSIX path string: '/'-separated pieces with empty
pieces and `.` pieces dropped (pathlib's normalisation; `..` is kept). -/
def posixParts (s : List Char) : List (List Char) :=
  (splitSlash s).filter fun p => !p.isEmpty && p != ['.']

/-- Rendering (`str()`) of a pure POSIX path given root and components: `.`
for the empty relative path, the root alone when there are no components. -/
def posixStr (root : List Char) (parts : List (List Char)) : List Char :=
  if parts.isEmpty then (if root.isEmpty then ['.'] else root)
  else root ++ joinSlash parts

/-- Embedding of `str(PurePosixPath(a) / b)`: when `b` is absolute it replaces
`a` entirely, otherwise the components are concatenated under `a`'s root. -/
def posixJoinStr (a b : String) : String :=
  let rb := posixRoot b.data
  if rb.isEmpty then ⟨posixStr (posixRoot a.data) (posixParts a.data ++ posixParts b.data)⟩
  else ⟨posixStr rb (posixParts b.data)⟩

/-! ### `_dbfs_glob` and `_dbfs_exists` -/

/-- One entry of a DBFS directory listing as returned by `dbutils.fs.ls`:
its full path (carrying the internal `dbfs:` scheme marker) and whether it is
a directory (`file_info.isDir()`). -/
structure FileInfo where
  path : String
  isDir : Bool

/-- Python `pattern.split("/")[-1]`: the final path segment. -/
def lastSeg (s : List Char) : List Char :=
  (splitSlash s).getLastD []

/-- The relation by which Python's `sorted` orders strings: lexicographic
order on the character sequences (which is exactly `String`'s order, see
`dataLe_iff`). -/
def dataLe (s t : String) : Prop := s.data ≤ t.data

instance : DecidableRel dataLe := fun s t => inferInstanceAs (Decidable (s.data ≤ t.data))

instance : IsTotal String dataLe := ⟨fun s t => le_total s.data t.data⟩

instance : IsTrans String dataLe := ⟨fun _ _ _ h₁ h₂ => le_trans h₁ h₂⟩

/-- Python `sorted(someSet)` where the set was collected from list `l`:
the distinct elements of `l` in ascending lexicographic order. -/
def sortedSet (l : List String) : List String :=
  l.dedup.insertionSort dataLe

/-- The set `matched` built by `_dbfs_glob`'s loop (as the list of elements
added, before deduplication): for every listed entry that is a directory,
join the entry's path (with `dbfs:` stripped) with the pattern's final
segment, test the candidate against the whole pattern, and on a match add it
re-prefixed with `"/dbfs"`. -/
def dbfsGlobMatches (pat filename : String) (entries : List FileInfo) : List String :=
  (((entries.filter fun fi => fi.isDir).map
        fun fi => posixJoinStr (stripDbfsPre fi.path "dbfs:") filename).filter
      fun path => fnmatch path pat).map
    fun path => "/dbfs" ++ path

/-- Embedding of `_dbfs_glob(pattern, dbutils)`.  The listing utility
`dbutils.fs.ls` is the argument `ls`; it may fail (raise), in which case the
failure propagates (the source has no handler here).  On success the sorted
list of matches is returned. -/
def dbfsGlob {ε : Type} (pattern : String) (ls : String → Except ε (List FileInfo)) :
    Except ε (List String) :=
  let pat := stripDbfsPre pattern "/dbfs"
  let pre := parseGlobPattern pat
  let filename : String := ⟨lastSeg pat.data⟩
  match ls pre with
  | .error e => .error e
  | .ok entries => .ok (sortedSet (dbfsGlobMatches pat filename entries))

/-- Embedding of `_dbfs_exists(pattern, dbutils)`: strip the mount prefix,
take the literal glob prefix, attempt the listing; `True` on success and
`False` on any failure (the source catches broad `Exception`). -/
def dbfsExists {ε : Type} (pattern : String) (ls : String → Except ε (List FileInfo)) :
    Bool :=
  let pat := stripDbfsPre pattern "/dbfs"
  let file := parseGlobPattern pat
  match ls file with
  | .ok _ => true
  | .error _ => false

/-! ### `KedroHdfsInsecureClient.hdfs_glob` -/

/-- One triple yielded by `hdfs.InsecureClient.walk`: a directory path, the
names of its subdirectories (unused by `hdfs_glob`) and the names of the
files directly inside it. -/
structure WalkEntry where
  dpath : String
  dirnames : List String
  fnames : List String

/-- Outcome of iterating `self.walk(prefix)`: the entries the generator
yielded, and whether it then signalled `HdfsError` (raised when the prefix
does not exist) instead of completing normally. -/
structure WalkResult where
  entries : List WalkEntry
  raisesHdfsError : Bool

/-- The set `matched` built by `hdfs_glob`'s loop (as the list of elements
added, before deduplication): every walked directory path matching the
pattern, plus every `dpath/fname` file path matching it. -/
def hdfsMatches (pattern : String) : List WalkEntry → List String
  | [] => []
  | e :: rest =>
    ((if fnmatch e.dpath pattern then [e.dpath] else []) ++
        (e.fnames.filter fun fname => fnmatch (e.dpath ++ "/" ++ fname) pattern).map
          fun fname => e.dpath ++ "/" ++ fname) ++
      hdfsMatches pattern rest

/-- Embedding of `KedroHdfsInsecureClient.hdfs_glob(pattern)`: walk from the
literal prefix of the pattern (`"/"` when that prefix is empty, Python's
`or "/"`), collect all matches among directory paths and file paths, absorb
a terminating `HdfsError` (`except HdfsError: pass`), and return the matches
sorted. -/
def hdfsGlob (pattern : String) (walk : String → WalkResult) : List String :=
  let p := parseGlobPattern pattern
  let pre := if p = "" then "/" else p
  sortedSet (hdfsMatches pattern (walk pre).entries)

/-! ### Basic lemmas about the string primitives -/

theorem string_eq_of_data {a b : String} (h : a.data = b.data) : a = b := by
  cases a; cases b; exact congrArg String.mk h

theorem splitSlash_ne_nil (s : List Char) : splitSlash s ≠ [] := by
  cases s with
  | nil => simp [splitSlash]
  | cons c cs =>
    simp only [splitSlash]
    split
    · simp
    · split <;> simp

theorem joinSlash_splitSlash (s : List Char) : joinSlash (splitSlash s) = s := by
  induction s with
  | nil => rfl
  | cons c cs ih =>
    by_cases hc : c = '/'
    · subst hc
      simp only [splitSlash, if_pos rfl]
      rcases h : splitSlash cs with _ | ⟨t, ts⟩
      · exact absurd h (splitSlash_ne_nil cs)
      · rw [h] at ih
        simpa [joinSlash] using ih
    · simp only [splitSlash, if_neg hc]
      rcases h : splitSlash cs with _ | ⟨t, ts⟩
      · exact absurd h (splitSlash_ne_nil cs)
      · rw [h] at ih
        cases ts with
        | nil => simpa [joinSlash] using ih
        | cons t2 ts2 =>
          simp only [joinSlash] at ih ⊢
          rw [List.cons_append, ih]

theorem takeWhile_middle {α : Type} (p : α → Bool) (l₁ : List α) (bad : α) (l₂ : List α)
    (h₁ : ∀ x ∈ l₁, p x = true) (h₂ : p bad = false) :
    (l₁ ++ bad :: l₂).takeWhile p = l₁ := by
  induction l₁ with
  | nil => simp [List.takeWhile_cons, h₂]
  | cons a as ih =>
    simp only [List.cons_append, List.takeWhile_cons, h₁ a (List.mem_cons_self a as), if_true]
    rw [ih fun x hx => h₁ x (List.mem_cons_of_mem a hx)]

/-! ### Lemmas about `findSep` -/

theorem findSep_some (s : List Char) :
    ∀ a b, findSep s = some (a, b) → s = a ++ ':' :: '/' :: '/' :: b := by
  induction s with
  | nil => intro a b h; simp [findSep] at h
  | cons c cs ih =>
    intro a b h
    simp only [findSep] at h
    split at h
    · rename_i hcond
      obtain ⟨hc, htake⟩ := hcond
      subst hc
      injection h with h'
      injection h' with ha hb
      subst ha; subst hb
      have htad := List.take_append_drop 2 cs
      rw [htake] at htad
      simpa using htad.symm
    · rcases hfs : findSep cs with _ | ⟨x, y⟩
      · rw [hfs] at h; simp at h
      · rw [hfs] at h
        simp only [Option.map_some'] at h
        injection h with h'
        injection h' with ha hb
        subst hb
        rw [← ha]
        simp [ih x y hfs]

theorem findSep_none (s : List Char) (h : ¬ [':', '/', '/'] <:+: s) : findSep s = none := by
  induction s with
  | nil => rfl
  | cons c cs ih =>
    have hcond : ¬ (c = ':' ∧ cs.take 2 = ['/', '/']) := by
      rintro ⟨hc, htake⟩
      subst hc
      have htad := List.take_append_drop 2 cs
      rw [htake] at htad
      exact h ⟨[], cs.drop 2, by simpa using congrArg (List.cons ':') htad⟩
    rw [findSep, if_neg hcond, ih fun hin => h (List.infix_cons hin)]
    rfl

theorem findSep_append (a : List Char) (h : ¬ [':', '/', '/'] <:+: a) (b : List Char) :
    findSep (a ++ ':' :: '/' :: '/' :: b) = some (a, b) := by
  induction a with
  | nil => simp [findSep]
  | cons c cs ih =>
    have hcond : ¬ (c = ':' ∧ (cs ++ ':' :: '/' :: '/' :: b).take 2 = ['/', '/']) := by
      rintro ⟨hc, htake⟩
      subst hc
      rcases cs with _ | ⟨d, cs'⟩
      · simp at htake
      · rcases cs' with _ | ⟨e, rest⟩
        · simp at htake
        · simp at htake
          obtain ⟨hd, he⟩ := htake
          subst hd; subst he
          exact h ⟨[], rest, by simp⟩
    rw [List.cons_append, findSep, if_neg hcond,
      ih fun hin => h (List.infix_cons hin)]
    rfl

/-! ### Lemmas about `sortedSet` -/

theorem dataLe_iff (s t : String) : dataLe s t ↔ s ≤ t :=
  Iff.symm String.le_iff_toList_le

theorem mem_sortedSet {l : List String} {x : String} : x ∈ sortedSet l ↔ x ∈ l := by
  unfold sortedSet
  rw [(List.perm_insertionSort dataLe l.dedup).mem_iff]
  exact List.mem_dedup

theorem sortedSet_sorted (l : List String) : (sortedSet l).Sorted (· ≤ ·) :=
  (List.sorted_insertionSort dataLe l.dedup).imp fun h => (dataLe_iff _ _).mp h

theorem sortedSet_nodup (l : List String) : (sortedSet l).Nodup :=
  ((List.perm_insertionSort dataLe l.dedup).nodup_iff).mpr (List.nodup_dedup l)

/-! ### Claim theorems about the pure string helpers -/

/-- C2: `_parse_glob_pattern` returns the '/'-joined maximal leading run of
'/'-separated segments that contain none of the metacharacters `*`, `?`, `[`:
when no segment contains a metacharacter the result is the whole pattern, and
otherwise exactly the literal segments strictly before the first segment
containing a metacharacter are joined back with `/`. -/
theorem parseGlobPattern_literalRun (p : String) :
    ((∀ seg ∈ splitSlash p.data, hasSpecial seg = false) → parseGlobPattern p = p) ∧
    (∀ l₁ bad l₂, splitSlash p.data = l₁ ++ bad :: l₂ →
      (∀ seg ∈ l₁, hasSpecial seg = false) → hasSpecial bad = true →
      (parseGlobPattern p).data = joinSlash l₁) := by
  constructor
  · intro h
    apply string_eq_of_data
    show joinSlash ((splitSlash p.data).takeWhile _) = p.data
    have ht : (splitSlash p.data).takeWhile (fun part => !hasSpecial part) = splitSlash p.data :=
      List.takeWhile_eq_self_iff.mpr fun x hx => by simp [h x hx]
    rw [ht, joinSlash_splitSlash]
  · intro l₁ bad l₂ hsplit h₁ h₂
    show joinSlash ((splitSlash p.data).takeWhile _) = joinSlash l₁
    rw [hsplit, takeWhile_middle _ _ _ _ (fun x hx => by simp [h₁ x hx]) (by simp [h₂])]

/-- Witness for C2: a pattern with no metacharacter is returned whole, and a
pattern with a metacharacter in its second segment keeps only the first. -/
theorem parseGlobPattern_literalRun_witness :
    parseGlobPattern "a/b" = "a/b" ∧ (parseGlobPattern "x/y[1]/z").data = joinSlash [['x']] := by
  constructor
  · exact (parseGlobPattern_literalRun "a/b").1 (by decide)
  · exact (parseGlobPattern_literalRun "x/y[1]/z").2 [['x']] ['y', '[', '1', ']'] [['z']]
      (by decide) (by decide) (by decide)

/-- C3: `_split_filepath` never fails and returns `(scheme, rest)` where the
concatenation reconstructs the input exactly; when the input contains `://`
the scheme is everything up to and including its first occurrence, and
otherwise the scheme is empty and the rest is the input unchanged. -/
theorem splitFilepath_spec :
    (∀ s : String, (splitFilepath s).1 ++ (splitFilepath s).2 = s) ∧
    (∀ s : String, ¬ [':', '/', '/'] <:+: s.data → splitFilepath s = ("", s)) ∧
    (∀ a b : String, ¬ [':', '/', '/'] <:+: a.data →
      splitFilepath (a ++ "://" ++ b) = (a ++ "://", b)) := by
  refine ⟨?_, ?_, ?_⟩
  · intro s
    rw [splitFilepath]
    rcases hfs : findSep s.data with _ | ⟨x, y⟩
    · apply string_eq_of_data
      simp [String.data_append]
    · apply string_eq_of_data
      have hx := findSep_some s.data x y hfs
      simp [String.data_append, hx]
  · intro s hs
    rw [splitFilepath, findSep_none s.data hs]
  · intro a b ha
    have hd : (a ++ "://" ++ b).data = a.data ++ ':' :: '/' :: '/' :: b.data := by
      simp [String.data_append]
    rw [splitFilepath, hd, findSep_append a.data ha b.data]

/-- Witness for C3: a location with a scheme separator and one without. -/
theorem splitFilepath_spec_witness :
    splitFilepath "s3a://bucket/key" = ("s3a://", "bucket/key") ∧
    splitFilepath "/local/path" = ("", "/local/path") := by
  constructor
  · have e : ("s3a" ++ "://" ++ "bucket/key" : String) = "s3a://bucket/key" := by decide
    have e2 : ("s3a" ++ "://" : String) = "s3a://" := by decide
    rw [← e, ← e2]
    exact splitFilepath_spec.2.2 "s3a" "bucket/key" (by decide)
  · exact splitFilepath_spec.2.1 "/local/path" (by decide)

/-- C4: `_strip_dbfs_prefix` removes exactly the first `len(prefix)`
characters when the path starts with the prefix (so stripping the prefix off
`prefix ++ rest` yields `rest`) and returns the path unchanged otherwise. -/
theorem stripDbfsPre_spec (path pre : String) :
    (pre.data <+: path.data → (stripDbfsPre path pre).data = path.data.drop pre.data.length) ∧
    (∀ rest : String, path = pre ++ rest → stripDbfsPre path pre = rest) ∧
    (¬ pre.data <+: path.data → stripDbfsPre path pre = path) := by
  refine ⟨?_, ?_, ?_⟩
  · intro hpre
    rw [stripDbfsPre, if_pos (List.isPrefixOf_iff_prefix.mpr hpre)]
  · intro rest hrest
    subst hrest
    rw [stripDbfsPre,
      if_pos (List.isPrefixOf_iff_prefix.mpr (by simp [String.data_append]))]
    apply string_eq_of_data
    simp [String.data_append, List.drop_left]
  · intro hpre
    rw [stripDbfsPre, if_neg fun hp => hpre (List.isPrefixOf_iff_prefix.mp hp)]

/-- Witness for C4: a path that starts with `/dbfs` is stripped, a path that
does not is returned unchanged. -/
theorem stripDbfsPre_spec_witness :
    stripDbfsPre "/dbfs/mnt/d" "/dbfs" = "/mnt/d" ∧
    stripDbfsPre "/data/x" "/dbfs" = "/data/x" := by
  constructor
  · have e : ("/dbfs" ++ "/mnt/d" : String) = "/dbfs/mnt/d" := by decide
    exact (stripDbfsPre_spec "/dbfs/mnt/d" "/dbfs").2.1 "/mnt/d" e.symm
  · exact (stripDbfsPre_spec "/data/x" "/dbfs").2.2 (by decide)

/-! ### Lemmas about `_dbfs_glob`, `_dbfs_exists` and `hdfs_glob` -/

theorem dbfsGlob_eq_of_ok {ε : Type} (pattern : String)
    (ls : String → Except ε (List FileInfo)) (entries : List FileInfo)
    (hok : ls (parseGlobPattern (stripDbfsPre pattern "/dbfs")) = .ok entries) :
    dbfsGlob pattern ls =
      .ok (sortedSet (dbfsGlobMatches (stripDbfsPre pattern "/dbfs")
        ⟨lastSeg (stripDbfsPre pattern "/dbfs").data⟩ entries)) := by
  simp only [dbfsGlob]
  rw [hok]

theorem dbfsGlob_ok_inv {ε : Type} (pattern : String)
    (ls : String → Except ε (List FileInfo)) (l : List String)
    (h : dbfsGlob pattern ls = .ok l) :
    ∃ entries, ls (parseGlobPattern (stripDbfsPre pattern "/dbfs")) = .ok entries ∧
      l = sortedSet (dbfsGlobMatches (stripDbfsPre pattern "/dbfs")
        ⟨lastSeg (stripDbfsPre pattern "/dbfs").data⟩ entries) := by
  rcases hls : ls (parseGlobPattern (stripDbfsPre pattern "/dbfs")) with e | entries
  · simp only [dbfsGlob] at h
    rw [hls] at h
    simp at h
  · rw [dbfsGlob_eq_of_ok pattern ls entries hls] at h
    injection h with h'
    exact ⟨entries, rfl, h'.symm⟩

theorem mem_dbfsGlobMatches {pat filename : String} {entries : List FileInfo} {x : String} :
    x ∈ dbfsGlobMatches pat filename entries ↔
      ∃ fi, fi ∈ entries ∧ fi.isDir = true ∧
        fnmatch (posixJoinStr (stripDbfsPre fi.path "dbfs:") filename) pat = true ∧
        x = "/dbfs" ++ posixJoinStr (stripDbfsPre fi.path "dbfs:") filename := by
  simp only [dbfsGlobMatches, List.mem_map, List.mem_filter]
  constructor
  · rintro ⟨path, ⟨⟨fi, ⟨hfi, hdir⟩, rfl⟩, hmatch⟩, rfl⟩
    exact ⟨fi, hfi, hdir, hmatch, rfl⟩
  · rintro ⟨fi, hfi, hdir, hmatch, rfl⟩
    exact ⟨_, ⟨⟨fi, ⟨hfi, hdir⟩, rfl⟩, hmatch⟩, rfl⟩

theorem mem_hdfsMatches {pattern : String} {es : List WalkEntry} {x : String} :
    x ∈ hdfsMatches pattern es ↔
      ∃ e, e ∈ es ∧
        ((x = e.dpath ∧ fnmatch e.dpath pattern = true) ∨
          ∃ fname, fname ∈ e.fnames ∧ x = e.dpath ++ "/" ++ fname ∧
            fnmatch (e.dpath ++ "/" ++ fname) pattern = true) := by
  induction es with
  | nil => simp [hdfsMatches]
  | cons e rest ih =>
    simp only [hdfsMatches, List.mem_append, List.mem_cons, ih, List.mem_map, List.mem_filter]
    constructor
    · rintro ((hd | ⟨fname, ⟨hmem, hmatch⟩, rfl⟩) | ⟨e', he', hp⟩)
      · split at hd
        · rename_i hm
          simp only [List.mem_singleton] at hd
          exact ⟨e, Or.inl rfl, Or.inl ⟨hd, hm⟩⟩
        · simp at hd
      · exact ⟨e, Or.inl rfl, Or.inr ⟨fname, hmem, rfl, hmatch⟩⟩
      · exact ⟨e', Or.inr he', hp⟩
    · rintro ⟨e', he' | he', hp⟩
      · subst he'
        rcases hp with ⟨rfl, hm⟩ | ⟨fname, hmem, rfl, hmatch⟩
        · exact Or.inl (Or.inl (by simp [hm]))
        · exact Or.inl (Or.inr ⟨fname, ⟨hmem, hmatch⟩, rfl⟩)
      · exact Or.inr ⟨e', he', hp⟩

/-! ### Claim theorems about `_dbfs_glob`, `_dbfs_exists`, `hdfs_glob` -/

/-- C1 (counterexample): when the listing of prefix `/p` returns the children
`a.txt` (file), `b.log` (file) and `sub/` (directory), `_dbfs_glob` applied
to the pattern `/dbfs/p/*.txt` does not return the single match
`/dbfs/p/a.txt`: file children are never considered. -/
theorem dbfsGlob_children_counterexample :
    ¬ (dbfsGlob "/dbfs/p/*.txt"
        (fun _ => (.ok [⟨"dbfs:/p/a.txt", false⟩, ⟨"dbfs:/p/b.log", false⟩,
          ⟨"dbfs:/p/sub/", true⟩] : Except Unit (List FileInfo))) =
      .ok ["/dbfs/p/a.txt"]) := by
  intro h
  have hr : dbfsGlob "/dbfs/p/*.txt"
      (fun _ => (.ok [⟨"dbfs:/p/a.txt", false⟩, ⟨"dbfs:/p/b.log", false⟩,
        ⟨"dbfs:/p/sub/", true⟩] : Except Unit (List FileInfo))) =
      .ok ["/dbfs/p/sub/*.txt"] := rfl
  rw [h] at hr
  injection hr with hr'
  exact absurd hr' (by decide)

/-- C1 (amended): when the listing of prefix `/p` returns the children
`a.txt` (file), `b.log` (file) and `sub/` (directory), `_dbfs_glob` applied
to `/dbfs/p/*.txt` returns exactly the single element `/dbfs/p/sub/*.txt`:
only directory children are considered, and the candidate is the directory
child's path joined with the pattern's final segment taken literally. -/
theorem dbfsGlob_children_example :
    dbfsGlob "/dbfs/p/*.txt"
        (fun _ => (.ok [⟨"dbfs:/p/a.txt", false⟩, ⟨"dbfs:/p/b.log", false⟩,
          ⟨"dbfs:/p/sub/", true⟩] : Except Unit (List FileInfo))) =
      .ok ["/dbfs/p/sub/*.txt"] := rfl

/-- C5: whenever `_dbfs_glob` returns a list (the listing succeeded), that
list is sorted in ascending lexicographic string order and duplicate-free. -/
theorem dbfsGlob_sorted_nodup {ε : Type} (pattern : String)
    (ls : String → Except ε (List FileInfo)) (l : List String)
    (h : dbfsGlob pattern ls = .ok l) : l.Sorted (· ≤ ·) ∧ l.Nodup := by
  obtain ⟨entries, _, rfl⟩ := dbfsGlob_ok_inv pattern ls l h
  exact ⟨sortedSet_sorted _, sortedSet_nodup _⟩

/-- Witness for C5 at a concrete pattern and listing (with a duplicated and
an out-of-order directory child). -/
theorem dbfsGlob_sorted_nodup_witness :
    (["/dbfs/b/u/f", "/dbfs/b/v/f"] : List String).Sorted (· ≤ ·) ∧
      (["/dbfs/b/u/f", "/dbfs/b/v/f"] : List String).Nodup :=
  dbfsGlob_sorted_nodup "/dbfs/b/*/f"
    (fun _ => (.ok [⟨"dbfs:/b/v/", true⟩, ⟨"dbfs:/b/u/", true⟩, ⟨"dbfs:/b/v/", true⟩] :
      Except Unit (List FileInfo)))
    ["/dbfs/b/u/f", "/dbfs/b/v/f"] (by rfl)

/-- C6: every path returned by `_dbfs_glob` is of the form `"/dbfs" ++ p`
(the internal `dbfs:` marker has been stripped and the external `/dbfs`
mount prefix re-added), so it starts with `/dbfs`. -/
theorem dbfsGlob_mount_form {ε : Type} (pattern : String)
    (ls : String → Except ε (List FileInfo)) (l : List String)
    (h : dbfsGlob pattern ls = .ok l) (x : String) (hx : x ∈ l) :
    ∃ p : String, x = "/dbfs" ++ p ∧ ("/dbfs" : String).data <+: x.data := by
  obtain ⟨entries, _, rfl⟩ := dbfsGlob_ok_inv pattern ls l h
  rw [mem_sortedSet, mem_dbfsGlobMatches] at hx
  obtain ⟨fi, _, _, _, hx⟩ := hx
  exact ⟨_, hx, by rw [hx]; simp [String.data_append]⟩

/-- Witness for C6: the mount-style round trip of the spec's example, where
the internal result `data/x` is returned as external `/dbfs/data/x`. -/
theorem dbfsGlob_mount_form_witness :
    ∃ p : String, ("/dbfs/data/x" : String) = "/dbfs" ++ p ∧
      ("/dbfs" : String).data <+: ("/dbfs/data/x" : String).data :=
  dbfsGlob_mount_form "/dbfs/data/x"
    (fun _ => (.ok [⟨"dbfs:/data/", true⟩] : Except Unit (List FileInfo)))
    ["/dbfs/data/x"] (by rfl) "/dbfs/data/x" (by simp)

/-- C9: `_dbfs_exists` returns `True` exactly when listing the literal glob
prefix of the mount-stripped pattern succeeds, and `False` on any listing
failure; no failure propagates. -/
theorem dbfsExists_iff {ε : Type} (pattern : String)
    (ls : String → Except ε (List FileInfo)) :
    dbfsExists pattern ls = true ↔
      ∃ entries, ls (parseGlobPattern (stripDbfsPre pattern "/dbfs")) = .ok entries := by
  simp only [dbfsExists]
  rcases hls : ls (parseGlobPattern (stripDbfsPre pattern "/dbfs")) with e | entries <;>
    simp

/-- C10: the result of `_dbfs_glob` consists exactly of the matches derived
from children reported as directories: `x` is returned iff some listed entry
with `isDir` true yields candidate `entry.path` (scheme-stripped) joined
with the pattern's final segment, the candidate matches the whole pattern,
and `x` is that candidate re-prefixed with `/dbfs`.  In particular children
with `isDir` false contribute nothing. -/
theorem dbfsGlob_mem_iff {ε : Type} (pattern : String)
    (ls : String → Except ε (List FileInfo)) (entries : List FileInfo)
    (hok : ls (parseGlobPattern (stripDbfsPre pattern "/dbfs")) = .ok entries)
    (l : List String) (h : dbfsGlob pattern ls = .ok l) (x : String) :
    x ∈ l ↔
      ∃ fi, fi ∈ entries ∧ fi.isDir = true ∧
        fnmatch (posixJoinStr (stripDbfsPre fi.path "dbfs:")
          ⟨lastSeg (stripDbfsPre pattern "/dbfs").data⟩) (stripDbfsPre pattern "/dbfs") = true ∧
        x = "/dbfs" ++ posixJoinStr (stripDbfsPre fi.path "dbfs:")
          ⟨lastSeg (stripDbfsPre pattern "/dbfs").data⟩ := by
  rw [dbfsGlob_eq_of_ok pattern ls entries hok] at h
  injection h with h'
  subst h'
  rw [mem_sortedSet, mem_dbfsGlobMatches]

/-- Witness for C10: a listing with one directory child and one file child;
the directory child's candidate is returned. -/
theorem dbfsGlob_mem_iff_witness :
    ("/dbfs/data/v1/x" : String) ∈ ["/dbfs/data/v1/x"] := by
  have h := dbfsGlob_mem_iff "/dbfs/data/*/x"
    (fun _ => (.ok [⟨"dbfs:/data/v1/", true⟩, ⟨"dbfs:/data/f.txt", false⟩] :
      Except Unit (List FileInfo)))
    [⟨"dbfs:/data/v1/", true⟩, ⟨"dbfs:/data/f.txt", false⟩] (by rfl)
    ["/dbfs/data/v1/x"] (by rfl) "/dbfs/data/v1/x"
  exact h.mpr ⟨⟨"dbfs:/data/v1/", true⟩, by simp, by rfl, by rfl, by rfl⟩

/-- C7: when the walk from the pattern's literal prefix yields nothing and
signals `HdfsError` (the prefix directory does not exist), `hdfs_glob`
absorbs the error and returns the empty list. -/
theorem hdfsGlob_absent_root (pattern : String) (walk : String → WalkResult)
    (hraise : (walk (if parseGlobPattern pattern = "" then "/"
        else parseGlobPattern pattern)).raisesHdfsError = true)
    (hempty : (walk (if parseGlobPattern pattern = "" then "/"
        else parseGlobPattern pattern)).entries = []) :
    hdfsGlob pattern walk = [] := by
  simp only [hdfsGlob, hempty]
  rfl

/-- Witness for C7: a walk that immediately raises. -/
theorem hdfsGlob_absent_root_witness :
    hdfsGlob "/nope/*" (fun _ => ⟨[], true⟩) = [] :=
  hdfsGlob_absent_root "/nope/*" (fun _ => ⟨[], true⟩) (by rfl) (by rfl)

/-- C8: `hdfs_glob` returns exactly the paths matching the pattern among
(a) every directory path yielded by the recursive walk from the pattern's
literal prefix and (b) every file path `dpath/fname` for a file name listed
in a walked directory — both intermediate directories and leaf files, at
every depth the walk reaches. -/
theorem hdfsGlob_mem_iff (pattern : String) (walk : String → WalkResult) (x : String) :
    x ∈ hdfsGlob pattern walk ↔
      ∃ e, e ∈ (walk (if parseGlobPattern pattern = "" then "/"
          else parseGlobPattern pattern)).entries ∧
        ((x = e.dpath ∧ fnmatch e.dpath pattern = true) ∨
          ∃ fname, fname ∈ e.fnames ∧ x = e.dpath ++ "/" ++ fname ∧
            fnmatch (e.dpath ++ "/" ++ fname) pattern = true) := by
  simp only [hdfsGlob]
  rw [mem_sortedSet, mem_hdfsMatches]

